import Mathlib

/-!
Shallow embedding of `etxDIR.py`: a tool that turns a PlantUML-style text
document into a directory/file tree.  Strings are modelled as `List Char`,
POSIX pure paths as a flag (absolute) plus a list of segments, and the
filesystem collaborator as an oracle `FsOp → Bool` saying whether each
creation call succeeds.  The two parsers (`parse_salt_tree` for the
marker dialect, `parse_classic_uml` for the brace dialect) are translated
line by line from the source.
-/

namespace EtxDir

/-- The ASCII whitespace characters recognised by Python's `str.strip()`
and by `\s` in the regular expressions of the source. -/
def isSpace (c : Char) : Bool :=
  c = ' ' || c = Char.ofNat 9 || c = Char.ofNat 10 || c = Char.ofNat 13 ||
  c = Char.ofNat 11 || c = Char.ofNat 12

/-- The double-quote character. -/
def dq : Char := Char.ofNat 34

/-- The single-quote character. -/
def sq : Char := Char.ofNat 39

/-- The opening brace character. -/
def lbrace : Char := Char.ofNat 123

/-- The closing brace character. -/
def rbrace : Char := Char.ofNat 125

/-- Remove the trailing run of characters satisfying `p`. -/
def dropTrail (p : Char → Bool) (l : List Char) : List Char :=
  (l.reverse.dropWhile p).reverse

/-- Python's `str.strip(chars)`: remove the leading and the trailing run of
characters satisfying `p`. -/
def pyStrip (p : Char → Bool) (l : List Char) : List Char :=
  dropTrail p (l.dropWhile p)

/-- `re.sub(r'^\s*\++\s*', '', s)`: if the string begins with optional
whitespace followed by at least one `+`, remove that whitespace, the
whole run of `+` signs and the whitespace after it; otherwise the string
is unchanged.  (The pattern is anchored, so at most one substitution.) -/
def subMarker (l : List Char) : List Char :=
  let r := l.dropWhile isSpace
  if r.head? = some '+' then (r.dropWhile (fun c => c = '+')).dropWhile isSpace else l

/-- `clean_name` from the source: marker-prefix removal, whitespace trim,
then `.strip('"')` and `.strip("'")` (each of which removes *every*
leading/trailing occurrence of that quote character). -/
def clean_name (l : List Char) : List Char :=
  if l = [] then []
  else pyStrip (fun c => c = sq) (pyStrip (fun c => c = dq) (pyStrip isSpace (subMarker l)))

/-! ### Pure POSIX paths, as `pathlib` handles them -/

/-- A pure POSIX path: whether it is absolute, and its list of segments. -/
structure PyPath where
  absolute : Bool
  segs : List (List Char)
deriving DecidableEq

/-- Split a raw name on `/` separators. -/
def splitSlash : List Char → List (List Char)
  | [] => [[]]
  | c :: rest =>
    let r := splitSlash rest
    if c = '/' then [] :: r
    else
      match r with
      | [] => [[c]]
      | h :: t => (c :: h) :: t

/-- The path components of a raw name: split on `/`, drop empty
components and `.` components (as `pathlib` does). -/
def pathComponents (name : List Char) : List (List Char) :=
  (splitSlash name).filter (fun s => !(decide (s = [])) && !(decide (s = ['.'])))

/-- `pathlib`'s `/` operator: joining a name that begins with `/` yields an
absolute path that discards the left operand; otherwise the name's
components are appended.  Joining an empty name leaves the path unchanged. -/
def joinPath (p : PyPath) (name : List Char) : PyPath :=
  if name.head? = some '/' then ⟨true, pathComponents name⟩
  else ⟨p.absolute, p.segs ++ pathComponents name⟩

/-- `a` is an initial segment of `b` (segment lists). -/
def segsInit : List (List Char) → List (List Char) → Bool
  | [], _ => true
  | _ :: _, [] => false
  | a :: as, b :: bs => decide (a = b) && segsInit as bs

/-- `p` is a descendant-or-self of `root` (syntactically: same
absoluteness and `root`'s segments are an initial segment of `p`'s). -/
def underRoot (root p : PyPath) : Bool :=
  (root.absolute == p.absolute) && segsInit root.segs p.segs

/-! ### Filesystem operations and log events -/

/-- A call into the filesystem collaborator. -/
inductive FsOp
  | mkdirOp (p : PyPath)
  | touchOp (p : PyPath)
deriving DecidableEq

/-- The path an operation acts on. -/
def FsOp.path : FsOp → PyPath
  | .mkdirOp p => p
  | .touchOp p => p

/-- One console line per processed item: `[DIR]`/`[FILE]` on success, the
corresponding error message on failure. -/
inductive LogEv
  | dir (p : PyPath) (ok : Bool)
  | file (p : PyPath) (ok : Bool)
deriving DecidableEq

/-- Whether a log event is a directory event. -/
def LogEv.isDirEv : LogEv → Bool
  | .dir _ _ => true
  | .file _ _ => false

/-! ### The marker (Salt tree) dialect parser -/

/-- One parsed structural item of the marker dialect. -/
structure Item where
  depth : Nat
  name : List Char
deriving DecidableEq

/-- The per-line pre-processing of `parse_salt_tree`: strip the line, skip
blank/comment/brace/`@`-lines, match `^(\++)\s*(.*)`, take the marker-run
length as depth, clean the remainder, and drop the line if the cleaned
name is empty. -/
def parseSaltLine (l0 : List Char) : Option Item :=
  let l := pyStrip isSpace l0
  if l = [] || l.head? = some sq || l = [rbrace] || l = [lbrace] ||
     l = [lbrace, 'T'] || l.head? = some '@' then none
  else
    let ps := l.takeWhile (fun c => c = '+')
    if ps = [] then none
    else
      let nm := clean_name ((l.dropWhile (fun c => c = '+')).dropWhile isSpace)
      if nm = [] then none else some ⟨ps.length, nm⟩

/-- The ordered item sequence extracted from the input lines. -/
def saltItems (lines : List (List Char)) : List Item :=
  lines.filterMap parseSaltLine

/-- The `while parent_depth > 0 and parent_depth not in dir_stack` loop:
starting from a candidate depth, decrement while the depth is absent,
stopping at `0`. -/
def resolveDepth (m : Nat → Option PyPath) : Nat → Nat
  | 0 => 0
  | c + 1 => if (m (c + 1)).isSome then c + 1 else resolveDepth m c

/-- `dir_stack.get(parent_depth, target_root)` after the fallback loop,
for an item at depth `depth` (candidate parent depth `depth - 1`). -/
def parentDirOf (m : Nat → Option PyPath) (root : PyPath) (depth : Nat) : PyPath :=
  (m (resolveDepth m (depth - 1))).getD root

/-- One iteration of the `parse_salt_tree` main loop, for item `it` with
the already-computed lookahead classification `isDir`.  Returns the new
depth map, the filesystem calls made (with their outcome) and the log
event printed. -/
def saltStep (fsOk : FsOp → Bool) (root : PyPath) (m : Nat → Option PyPath)
    (it : Item) (isDir : Bool) :
    (Nat → Option PyPath) × List (FsOp × Bool) × LogEv :=
  let parentDir := parentDirOf m root it.depth
  let cur := joinPath parentDir it.name
  if isDir then
    if fsOk (FsOp.mkdirOp cur) then
      (fun d => if d = it.depth then some cur else m d,
       [(FsOp.mkdirOp cur, true)], LogEv.dir cur true)
    else
      (m, [(FsOp.mkdirOp cur, false)], LogEv.dir cur false)
  else
    if fsOk (FsOp.mkdirOp parentDir) then
      if fsOk (FsOp.touchOp cur) then
        (m, [(FsOp.mkdirOp parentDir, true), (FsOp.touchOp cur, true)], LogEv.file cur true)
      else
        (m, [(FsOp.mkdirOp parentDir, true), (FsOp.touchOp cur, false)], LogEv.file cur false)
    else
      (m, [(FsOp.mkdirOp parentDir, false)], LogEv.file cur false)

/-- The lookahead classification at item `it` when the remaining items
are `rest`: `it` is a directory iff `rest.head?` (which is `items[i+1]`)
exists and is strictly deeper. -/
def lookDir (it : Item) (rest : List Item) : Bool :=
  match rest.head? with
  | some nx => decide (it.depth < nx.depth)
  | none => false

/-- The `for i, item in enumerate(items)` loop: the lookahead at item `i`
is the head of the remaining items (i.e. `items[i+1]`). -/
def saltGo (fsOk : FsOp → Bool) (root : PyPath) (m : Nat → Option PyPath) :
    List Item → (Nat → Option PyPath) × List (FsOp × Bool) × List LogEv
  | [] => (m, [], [])
  | it :: rest =>
    let s := saltStep fsOk root m it (lookDir it rest)
    let r := saltGo fsOk root s.1 rest
    (r.1, s.2.1 ++ r.2.1, s.2.2 :: r.2.2)

/-- The result of a marker-dialect run. -/
structure SaltResult where
  warning : Bool
  dmap : Nat → Option PyPath
  calls : List (FsOp × Bool)
  logs : List LogEv

/-- `dir_stack = {0: target_root}`. -/
def initMap (root : PyPath) : Nat → Option PyPath :=
  fun d => if d = 0 then some root else none

/-- `parse_salt_tree` from the source: extract the items; if none, warn and
perform no filesystem work; otherwise run the main loop. -/
def parse_salt_tree (fsOk : FsOp → Bool) (root : PyPath)
    (lines : List (List Char)) : SaltResult :=
  let items := saltItems lines
  if items = [] then ⟨true, initMap root, [], []⟩
  else
    let r := saltGo fsOk root (initMap root) items
    ⟨false, r.1, r.2.1, r.2.2⟩

/-! ### The brace/keyword (classic UML) dialect parser -/

/-- The keyword alternation of `definition_pattern`, in source order. -/
def keywordList : List (List Char) :=
  ["package", "folder", "namespace", "node", "component",
   "class", "interface", "file", "artifact", "object"].map String.toList

/-- The directory-like keywords. -/
def dirKeywordList : List (List Char) :=
  ["package", "folder", "namespace", "node", "component"].map String.toList

/-- Case-insensitively, `l` begins with `kw` followed by a whitespace
character (the `(keyword)\s+` part of the pattern on a stripped line). -/
def kwMatches (l : List Char) (kw : List Char) : Bool :=
  ((l.take kw.length).map Char.toLower == kw) &&
  (match l.get? kw.length with
   | some c => isSpace c
   | none => false)

/-- The name part `(?:"([^"]+)"|([^\s{]+))`: a double-quoted non-empty name
if one is present, otherwise a maximal non-empty run of characters that
are neither whitespace nor an opening brace. -/
def extractName (rest : List Char) : Option (List Char) :=
  let bare := rest.takeWhile (fun c => !(isSpace c) && !(c = lbrace))
  if rest.head? = some dq then
    let inner := (rest.drop 1).takeWhile (fun c => !(c = dq))
    if !(decide (inner = [])) && ((rest.drop 1).drop inner.length).head? = some dq then
      some inner
    else if bare = [] then none else some bare
  else if bare = [] then none else some bare

/-- `definition_pattern.search(line)` on a stripped line: the matched
keyword (lower-cased) and the raw name, if the line matches. -/
def matchDef (l : List Char) : Option (List Char × List Char) :=
  match keywordList.find? (kwMatches l) with
  | none => none
  | some kw =>
    let rest := (l.drop kw.length).dropWhile isSpace
    match extractName rest with
    | none => none
    | some nm => some (kw, nm)

/-- One iteration of the `parse_classic_uml` loop for a single line:
returns the new stack, the filesystem calls made, the log events printed,
and whether an uncaught `OSError` aborted the run (the source has no
`try`/`except` here, so a failed creation propagates). -/
def classicStep (fsOk : FsOp → Bool) (stack : List PyPath) (l0 : List Char) :
    List PyPath × List (FsOp × Bool) × List LogEv × Bool :=
  let l := pyStrip isSpace l0
  if l = [] || l.head? = some sq || l.head? = some '@' then (stack, [], [], false)
  else if l.head? = some rbrace then
    (if 1 < stack.length then stack.tail else stack, [], [], false)
  else
    match matchDef l with
    | none => (stack, [], [], false)
    | some (kw, rawName) =>
      let nm := clean_name rawName
      let p := joinPath (stack.headD ⟨false, []⟩) nm
      if kw ∈ dirKeywordList then
        if fsOk (FsOp.mkdirOp p) then
          (p :: stack, [(FsOp.mkdirOp p, true)], [LogEv.dir p true], false)
        else (stack, [(FsOp.mkdirOp p, false)], [], true)
      else
        if fsOk (FsOp.touchOp p) then
          (stack, [(FsOp.touchOp p, true)], [LogEv.file p true], false)
        else (stack, [(FsOp.touchOp p, false)], [], true)

/-- The result of a brace-dialect run.  The stack is kept with its top as
the list head (`path_stack[-1]` in the source is `stack.headD _` here). -/
structure ClassicResult where
  calls : List (FsOp × Bool)
  logs : List LogEv
  stack : List PyPath
  aborted : Bool
deriving DecidableEq

/-- The `for line in lines` loop of `parse_classic_uml`, stopping at the
first uncaught filesystem error. -/
def classicGo (fsOk : FsOp → Bool) (stack : List PyPath) :
    List (List Char) → ClassicResult
  | [] => ⟨[], [], stack, false⟩
  | l :: rest =>
    let s := classicStep fsOk stack l
    if s.2.2.2 then ⟨s.2.1, s.2.2.1, s.1, true⟩
    else
      let r := classicGo fsOk s.1 rest
      ⟨s.2.1 ++ r.calls, s.2.2.1 ++ r.logs, r.stack, r.aborted⟩

/-- `parse_classic_uml` from the source: `path_stack = [target_root]`,
then the line loop. -/
def parse_classic_uml (fsOk : FsOp → Bool) (root : PyPath)
    (lines : List (List Char)) : ClassicResult :=
  classicGo fsOk [root] lines

/-! ### Auxiliary predicates and sample data used in the statements -/

/-- The first character of `w` is not one the normalizer could remove:
not whitespace, not a marker, not a quote. -/
def headOkC (w : List Char) : Bool :=
  match w.head? with
  | some a => !(isSpace a) && !(a = '+') && !(a = dq) && !(a = sq)
  | none => true

/-- The last character of `w` is not one the normalizer could remove:
not whitespace, not a quote. -/
def lastOkC (w : List Char) : Bool :=
  match w.getLast? with
  | some b => !(isSpace b) && !(b = dq) && !(b = sq)
  | none => true

/-- `w` is a fixed point candidate of the normalizer: both ends are
untouched by every stripping phase. -/
def stableName (w : List Char) : Bool :=
  headOkC w && lastOkC w

/-- A non-empty word whose ends are untouched by every stripping phase. -/
def coreOk (w : List Char) : Bool :=
  !(decide (w = [])) && stableName w

/-- A sample absolute target root `/r`. -/
def sampleRoot : PyPath := ⟨true, [['r']]⟩

/-- A filesystem oracle on which every creation succeeds. -/
def okAll : FsOp → Bool := fun _ => true

/-- The path `/r/a`. -/
def pathRA : PyPath := ⟨true, [['r'], ['a']]⟩

/-- The path `/r/a/b`. -/
def pathRAB : PyPath := ⟨true, [['r'], ['a'], ['b']]⟩

/-- A filesystem oracle on which exactly the creation of the empty file
`/r/a` fails. -/
def failTouchA : FsOp → Bool := fun op => decide (op ≠ FsOp.touchOp pathRA)

/-- Every path stored in the depth map lies under the root. -/
def dmapUnder (root : PyPath) (m : Nat → Option PyPath) : Prop :=
  ∀ d p, m d = some p → underRoot root p = true

/-- Every path on the stack lies under the root. -/
def stackUnder (root : PyPath) (s : List PyPath) : Prop :=
  ∀ p ∈ s, underRoot root p = true

/-! ## Generic helper lemmas -/

theorem dropWhile_of_head {p : Char → Bool} {l : List Char} {a : Char}
    (h : l.head? = some a) (hp : p a = false) : l.dropWhile p = l := by
  cases l with
  | nil => rfl
  | cons x xs =>
    simp only [List.head?] at h
    injection h with h
    subst h
    simp [List.dropWhile_cons, hp]

theorem dropTrail_of_getLast {p : Char → Bool} {l : List Char} {b : Char}
    (h : l.getLast? = some b) (hp : p b = false) : dropTrail p l = l := by
  unfold dropTrail
  rw [dropWhile_of_head (by rw [List.head?_reverse]; exact h) hp, List.reverse_reverse]

theorem pyStrip_of_ends {p : Char → Bool} {l : List Char} {a b : Char}
    (h1 : l.head? = some a) (hp1 : p a = false)
    (h2 : l.getLast? = some b) (hp2 : p b = false) : pyStrip p l = l := by
  unfold pyStrip
  rw [dropWhile_of_head h1 hp1, dropTrail_of_getLast h2 hp2]

theorem dropWhile_replicate_append {p : Char → Bool} {c : Char} (hc : p c = true)
    (m : Nat) (l : List Char) :
    (List.replicate m c ++ l).dropWhile p = l.dropWhile p := by
  induction m with
  | zero => rfl
  | succ k ih => simp [List.replicate_succ, List.dropWhile_cons, hc, ih]

theorem dropTrail_append_replicate {p : Char → Bool} {c : Char} (hc : p c = true)
    (n : Nat) (l : List Char) :
    dropTrail p (l ++ List.replicate n c) = dropTrail p l := by
  unfold dropTrail
  rw [List.reverse_append, List.reverse_replicate, dropWhile_replicate_append hc]

theorem subMarker_of_head {l : List Char} {a : Char}
    (h : l.head? = some a) (hs : isSpace a = false) (hplus : ¬a = '+') :
    subMarker l = l := by
  unfold subMarker
  rw [dropWhile_of_head h hs]
  simp only [h]
  rw [if_neg (by simp [hplus])]

/-- From `headOkC w = true` and a known head, extract the four facts. -/
theorem headOkC_elim {w : List Char} {a : Char}
    (h : headOkC w = true) (ha : w.head? = some a) :
    isSpace a = false ∧ ¬a = '+' ∧ ¬a = dq ∧ ¬a = sq := by
  unfold headOkC at h
  rw [ha] at h
  simp only [Bool.and_eq_true, Bool.not_eq_true', decide_eq_false_iff_not] at h
  exact ⟨h.1.1.1, h.1.1.2, h.1.2, h.2⟩

/-- From `lastOkC w = true` and a known last character, extract the facts. -/
theorem lastOkC_elim {w : List Char} {b : Char}
    (h : lastOkC w = true) (hb : w.getLast? = some b) :
    isSpace b = false ∧ ¬b = dq ∧ ¬b = sq := by
  unfold lastOkC at h
  rw [hb] at h
  simp only [Bool.and_eq_true, Bool.not_eq_true', decide_eq_false_iff_not] at h
  exact ⟨h.1.1, h.1.2, h.2⟩

/-- A stable word is a fixed point of `clean_name`. -/
theorem clean_name_of_stable {w : List Char} (h : stableName w = true) :
    clean_name w = w := by
  cases hw : w with
  | nil => rfl
  | cons x xs =>
    have hne : w ≠ [] := by rw [hw]; exact List.cons_ne_nil x xs
    rw [← hw]
    have ha : w.head? = some x := by rw [hw]; rfl
    obtain ⟨b, hb⟩ : ∃ b, w.getLast? = some b := by
      rw [hw]; exact ⟨(x :: xs).getLast (List.cons_ne_nil x xs), List.getLast?_eq_getLast _ _⟩
    unfold stableName at h
    simp only [Bool.and_eq_true] at h
    obtain ⟨hs1, hp1, hd1, hq1⟩ := headOkC_elim h.1 ha
    obtain ⟨hs2, hd2, hq2⟩ := lastOkC_elim h.2 hb
    unfold clean_name
    rw [if_neg hne, subMarker_of_head ha hs1 hp1,
      pyStrip_of_ends ha hs1 hb hs2,
      pyStrip_of_ends ha (by simp [hd1]) hb (by simp [hd2]),
      pyStrip_of_ends ha (by simp [hq1]) hb (by simp [hq2])]

theorem getLast?_replicate_succ (n : Nat) (c : Char) :
    (List.replicate (n + 1) c).getLast? = some c := by
  induction n with
  | zero => rfl
  | succ k ih =>
    rw [List.replicate_succ] at ih ⊢
    rw [List.replicate_succ]
    exact List.getLast?_cons_cons.trans ih

theorem head?_rep_app {c x : Char} {m : Nat} {l : List Char}
    (h : (List.replicate m c ++ l).head? = some x) : x = c ∨ l.head? = some x := by
  cases m with
  | zero => right; simpa using h
  | succ k =>
    left
    rw [List.replicate_succ, List.cons_append] at h
    simp only [List.head?] at h
    injection h with h
    exact h.symm

theorem getLast?_app_rep {c x : Char} {n : Nat} {l : List Char}
    (h : (l ++ List.replicate n c).getLast? = some x) : x = c ∨ l.getLast? = some x := by
  cases n with
  | zero => right; simpa using h
  | succ k =>
    left
    rw [List.getLast?_append_of_ne_nil l (by simp [List.replicate_succ]),
      getLast?_replicate_succ] at h
    injection h with h
    exact h.symm

/-- The core fixed-point facts extracted from `coreOk`. -/
theorem coreOk_elim {w : List Char} (h : coreOk w = true) :
    w ≠ [] ∧ ∃ a b, w.head? = some a ∧ w.getLast? = some b ∧
      isSpace a = false ∧ ¬a = '+' ∧ ¬a = dq ∧ ¬a = sq ∧
      isSpace b = false ∧ ¬b = dq ∧ ¬b = sq := by
  unfold coreOk at h
  simp only [Bool.and_eq_true, Bool.not_eq_true', decide_eq_false_iff_not] at h
  obtain ⟨hw, hst⟩ := h
  unfold stableName at hst
  simp only [Bool.and_eq_true] at hst
  have ha : w.head? = some (w.head hw) := List.head?_eq_head hw
  have hb : w.getLast? = some (w.getLast hw) := List.getLast?_eq_getLast _ _
  obtain ⟨h1, h2, h3, h4⟩ := headOkC_elim hst.1 ha
  obtain ⟨h5, h6, h7⟩ := lastOkC_elim hst.2 hb
  exact ⟨hw, w.head hw, w.getLast hw, ha, hb, h1, h2, h3, h4, h5, h6, h7⟩

/-- Stripping behaviour on a word wrapped in layers of double quotes:
every layer on each side is removed. -/
theorem clean_name_dq_wrap {w : List Char} (h : coreOk w = true) (m n : Nat) :
    clean_name (List.replicate m dq ++ (w ++ List.replicate n dq)) = w := by
  obtain ⟨hw, a, b, ha, hb, ha1, ha2, ha3, ha4, hb1, hb2, hb3⟩ := coreOk_elim h
  have hwr : w ++ List.replicate n dq ≠ [] := by
    intro hc
    rw [List.append_eq_nil] at hc
    exact hw hc.1
  have hLne : List.replicate m dq ++ (w ++ List.replicate n dq) ≠ [] := by
    intro hc
    rw [List.append_eq_nil] at hc
    exact hwr hc.2
  obtain ⟨x, hx⟩ : ∃ x, (List.replicate m dq ++ (w ++ List.replicate n dq)).head? = some x := by
    cases hc : List.replicate m dq ++ (w ++ List.replicate n dq) with
    | nil => exact absurd hc hLne
    | cons y ys => exact ⟨y, rfl⟩
  obtain ⟨y, hy⟩ : ∃ y, (List.replicate m dq ++ (w ++ List.replicate n dq)).getLast? = some y := by
    refine ⟨_, List.getLast?_eq_getLast _ hLne⟩
  have hxfacts : isSpace x = false ∧ ¬x = '+' := by
    rcases head?_rep_app hx with hxd | hxw
    · subst hxd; exact ⟨by decide, by decide⟩
    · rw [List.head?_append_of_ne_nil w hw, ha] at hxw
      injection hxw with hxw
      subst hxw
      exact ⟨ha1, ha2⟩
  have hyfact : isSpace y = false := by
    have hy' : (w ++ List.replicate n dq).getLast? = some y := by
      cases m with
      | zero => simpa using hy
      | succ k =>
        rwa [List.getLast?_append_of_ne_nil _ hwr] at hy
    rcases getLast?_app_rep hy' with hyd | hyw
    · subst hyd; decide
    · rw [hb] at hyw
      injection hyw with hyw
      subst hyw
      exact hb1
  unfold clean_name
  rw [if_neg hLne, subMarker_of_head hx hxfacts.1 hxfacts.2,
    pyStrip_of_ends hx hxfacts.1 hy hyfact]
  have h1 : (List.replicate m dq ++ (w ++ List.replicate n dq)).dropWhile (fun c => c = dq)
      = w ++ List.replicate n dq := by
    rw [dropWhile_replicate_append (by simp)]
    exact dropWhile_of_head (by rw [List.head?_append_of_ne_nil w hw]; exact ha)
      (by simp [ha3])
  have h2 : dropTrail (fun c => c = dq) (w ++ List.replicate n dq) = w := by
    rw [dropTrail_append_replicate (by simp)]
    exact dropTrail_of_getLast hb (by simp [hb2])
  have h3 : pyStrip (fun c => c = dq) (List.replicate m dq ++ (w ++ List.replicate n dq)) = w := by
    unfold pyStrip
    rw [h1, h2]
  rw [h3, pyStrip_of_ends ha (by simp [ha4]) hb (by simp [hb3])]

/-- A double-quoted name wrapped in single quotes keeps the inner
double-quote layer. -/
theorem clean_name_sq_dq_wrap {w : List Char} (h : coreOk w = true) :
    clean_name ((sq :: dq :: w) ++ [dq, sq]) = (dq :: w) ++ [dq] := by
  obtain ⟨hw, a, b, ha, hb, ha1, ha2, ha3, ha4, hb1, hb2, hb3⟩ := coreOk_elim h
  have hx : ((sq :: dq :: w) ++ [dq, sq]).head? = some sq := rfl
  have hy : ((sq :: dq :: w) ++ [dq, sq]).getLast? = some sq := by
    rw [List.getLast?_append_of_ne_nil _ (by simp)]
    rfl
  unfold clean_name
  rw [if_neg (by simp), subMarker_of_head hx (by decide) (by decide),
    pyStrip_of_ends hx (by decide) hy (by decide),
    pyStrip_of_ends hx (by decide) hy (by decide)]
  have h1 : ((sq :: dq :: w) ++ [dq, sq]).dropWhile (fun c => c = sq)
      = (dq :: w) ++ [dq, sq] := by
    rw [List.cons_append, List.dropWhile_cons, if_pos (by simp)]
    rw [List.cons_append, List.dropWhile_cons, if_neg (by simp [show ¬dq = sq by decide])]
  have h2 : dropTrail (fun c => c = sq) ((dq :: w) ++ [dq, sq]) = (dq :: w) ++ [dq] := by
    have hsplit : (dq :: w) ++ [dq, sq] = ((dq :: w) ++ [dq]) ++ List.replicate 1 sq := by
      simp
    rw [hsplit, dropTrail_append_replicate (by simp)]
    exact dropTrail_of_getLast (List.getLast?_concat _) (by simp [show ¬dq = sq by decide])
  unfold pyStrip
  rw [h1, h2]

/-- A marker run plus a space before a core word is removed entirely. -/
theorem clean_name_marker_run {w : List Char} (h : coreOk w = true)
    {k : Nat} (hk : 1 ≤ k) :
    clean_name (List.replicate k '+' ++ (' ' :: w)) = w := by
  obtain ⟨hw, a, b, ha, hb, ha1, ha2, ha3, ha4, hb1, hb2, hb3⟩ := coreOk_elim h
  obtain ⟨j, rfl⟩ : ∃ j, k = j + 1 := ⟨k - 1, by omega⟩
  have hLform : List.replicate (j + 1) '+' ++ (' ' :: w)
      = '+' :: (List.replicate j '+' ++ (' ' :: w)) := by
    rw [List.replicate_succ, List.cons_append]
  have hLhead : (List.replicate (j + 1) '+' ++ (' ' :: w)).head? = some '+' := by
    rw [hLform]; rfl
  unfold clean_name
  rw [if_neg (by rw [hLform]; simp)]
  have hsub : subMarker (List.replicate (j + 1) '+' ++ (' ' :: w)) = w := by
    unfold subMarker
    rw [dropWhile_of_head hLhead (by decide)]
    simp only [hLhead, if_pos]
    rw [dropWhile_replicate_append (by simp), List.dropWhile_cons,
      if_neg (by simp [show (' ') = '+' → False by decide]), List.dropWhile_cons,
      if_pos (by decide), dropWhile_of_head ha ha1]
  rw [hsub, pyStrip_of_ends ha ha1 hb hb1,
    pyStrip_of_ends ha (by simp [ha3]) hb (by simp [hb2]),
    pyStrip_of_ends ha (by simp [ha4]) hb (by simp [hb3])]

/-! ## Helper lemmas on the marker-dialect loop -/

theorem saltGo_cons (fsOk : FsOp → Bool) (root : PyPath) (m : Nat → Option PyPath)
    (a : Item) (rest : List Item) :
    saltGo fsOk root m (a :: rest) =
      ((saltGo fsOk root (saltStep fsOk root m a (lookDir a rest)).1 rest).1,
       (saltStep fsOk root m a (lookDir a rest)).2.1 ++
         (saltGo fsOk root (saltStep fsOk root m a (lookDir a rest)).1 rest).2.1,
       (saltStep fsOk root m a (lookDir a rest)).2.2 ::
         (saltGo fsOk root (saltStep fsOk root m a (lookDir a rest)).1 rest).2.2) := rfl

/-- The log event of a step is a directory event iff the step was told the
item is a directory. -/
theorem saltStep_isDirEv (fsOk : FsOp → Bool) (root : PyPath) (m : Nat → Option PyPath)
    (it : Item) (b : Bool) :
    ((saltStep fsOk root m it b).2.2).isDirEv = b := by
  unfold saltStep
  cases b with
  | false =>
    rw [if_neg (by simp)]
    split
    · split <;> rfl
    · rfl
  | true =>
    rw [if_pos rfl]
    split <;> rfl

/-- A step that processes a file item leaves the depth map unchanged. -/
theorem saltStep_dmap_file (fsOk : FsOp → Bool) (root : PyPath) (m : Nat → Option PyPath)
    (it : Item) : (saltStep fsOk root m it false).1 = m := by
  unfold saltStep
  rw [if_neg (by simp)]
  split
  · split <;> rfl
  · rfl

/-- A step whose directory creation fails leaves the depth map unchanged. -/
theorem saltStep_dmap_dir_fail (fsOk : FsOp → Bool) (root : PyPath) (m : Nat → Option PyPath)
    (it : Item)
    (h : fsOk (FsOp.mkdirOp (joinPath (parentDirOf m root it.depth) it.name)) = false) :
    (saltStep fsOk root m it true).1 = m := by
  unfold saltStep
  rw [if_pos rfl, if_neg (by simp [h])]

/-- Whatever a step writes into the depth map is a path whose successful
directory creation is among the step's calls; other depths are untouched. -/
theorem saltStep_dmap_mem (fsOk : FsOp → Bool) (root : PyPath) (m : Nat → Option PyPath)
    (it : Item) (b : Bool) (d : Nat) (p : PyPath)
    (h : (saltStep fsOk root m it b).1 d = some p) :
    (FsOp.mkdirOp p, true) ∈ (saltStep fsOk root m it b).2.1 ∨ m d = some p := by
  unfold saltStep at h ⊢
  cases b with
  | false =>
    rw [if_neg (by simp)] at h ⊢
    split at h
    · split at h
      · exact Or.inr h
      · exact Or.inr h
    · exact Or.inr h
  | true =>
    rw [if_pos rfl] at h ⊢
    split at h
    · rename_i hok
      have h' : (if d = it.depth then
          some (joinPath (parentDirOf m root it.depth) it.name) else m d) = some p := h
      by_cases hd : d = it.depth
      · rw [if_pos hd] at h'
        injection h' with h'
        left
        rw [if_pos hok]
        exact List.mem_singleton.mpr (by rw [h'])
      · rw [if_neg hd] at h'
        exact Or.inr h'
    · exact Or.inr h

/-- A step changes the depth map only at the item's own depth. -/
theorem saltStep_dmap_other (fsOk : FsOp → Bool) (root : PyPath) (m : Nat → Option PyPath)
    (it : Item) (b : Bool) (d : Nat) (hd : ¬d = it.depth) :
    (saltStep fsOk root m it b).1 d = m d := by
  unfold saltStep
  cases b with
  | false =>
    rw [if_neg (by simp)]
    split
    · split <;> rfl
    · rfl
  | true =>
    rw [if_pos rfl]
    split
    · simp only [if_neg hd]
    · rfl

/-- The loop emits exactly one log event per item. -/
theorem saltGo_logs_length (fsOk : FsOp → Bool) (root : PyPath) :
    ∀ (items : List Item) (m : Nat → Option PyPath),
      ((saltGo fsOk root m items).2.2).length = items.length := by
  intro items
  induction items with
  | nil => intro m; rfl
  | cons a rest ih =>
    intro m
    rw [saltGo_cons]
    simp [ih]

/-- The loop never touches map entries at depths no item has. -/
theorem saltGo_dmap_other (fsOk : FsOp → Bool) (root : PyPath) :
    ∀ (items : List Item) (m : Nat → Option PyPath) (d : Nat),
      (∀ it ∈ items, ¬d = it.depth) →
      (saltGo fsOk root m items).1 d = m d := by
  intro items
  induction items with
  | nil => intro m d _; rfl
  | cons a rest ih =>
    intro m d hd
    rw [saltGo_cons]
    rw [ih _ d (fun it h => hd it (List.mem_cons_of_mem a h))]
    exact saltStep_dmap_other fsOk root m a _ d (hd a (List.mem_cons_self a rest))

/-- Every entry the loop adds to the depth map had its directory
successfully created by one of the loop's calls. -/
theorem saltGo_dmap_mem (fsOk : FsOp → Bool) (root : PyPath) :
    ∀ (items : List Item) (m : Nat → Option PyPath) (d : Nat) (p : PyPath),
      (saltGo fsOk root m items).1 d = some p →
      (FsOp.mkdirOp p, true) ∈ (saltGo fsOk root m items).2.1 ∨ m d = some p := by
  intro items
  induction items with
  | nil => intro m d p h; exact Or.inr h
  | cons a rest ih =>
    intro m d p h
    rw [saltGo_cons] at h ⊢
    rcases ih _ d p h with hmem | hs
    · exact Or.inl (List.mem_append.mpr (Or.inr hmem))
    · rcases saltStep_dmap_mem fsOk root m a (lookDir a rest) d p hs with hmem | hm
      · exact Or.inl (List.mem_append.mpr (Or.inl hmem))
      · exact Or.inr hm

/-! ## Claims C6 and C7: the name normalizer -/

/-- C6 (amended): `clean_name` strips the leading marker run plus its
surrounding whitespace, trims whitespace, then strips *all* leading and
trailing double-quote characters, then *all* leading and trailing
single-quote characters.  Hence any number of surrounding double-quote
layers is removed entirely, and an inner double-quote layer survives
exactly when it is wrapped in single quotes. -/
theorem c6_clean_name_strip_layers :
    ∀ (m n k : Nat) (w : List Char), coreOk w = true →
      clean_name (List.replicate m dq ++ (w ++ List.replicate n dq)) = w ∧
      clean_name ((sq :: dq :: w) ++ [dq, sq]) = (dq :: w) ++ [dq] ∧
      (1 ≤ k → clean_name (List.replicate k '+' ++ (' ' :: w)) = w) :=
  fun m n _ _ h =>
    ⟨clean_name_dq_wrap h m n, clean_name_sq_dq_wrap h,
     fun hk => clean_name_marker_run h hk⟩

/-- Witness for C6 at `m = n = 2`, `k = 1`, `w = "x"`. -/
theorem c6_witness :
    clean_name (List.replicate 2 dq ++ (['x'] ++ List.replicate 2 dq)) = ['x'] :=
  (c6_clean_name_strip_layers 2 2 1 ['x'] (by decide)).1

/-- C6 counterexample: on `""x""` the normalizer returns `x`, not the
`"x"` that keeping the inner quote layer would give. -/
theorem c6_counterexample :
    clean_name (String.toList "\"\"x\"\"") = String.toList "x" ∧
    clean_name (String.toList "\"\"x\"\"") ≠ String.toList "\"x\"" := by
  decide

/-- C7 (amended): the normalizer is idempotent on every input whose
normalized form neither begins with whitespace, a marker character or a
quote character, nor ends with whitespace or a quote character. -/
theorem c7_clean_name_idempotent_on_stable :
    ∀ l : List Char, stableName (clean_name l) = true →
      clean_name (clean_name l) = clean_name l :=
  fun _ h => clean_name_of_stable h

/-- Witness for C7 at the input `a`. -/
theorem c7_witness : clean_name (clean_name ['a']) = clean_name ['a'] :=
  c7_clean_name_idempotent_on_stable ['a'] (by decide)

/-- C7 counterexample: on the four-character input `"+a"` one application
yields `+a` but a second application strips the now-leading marker and
yields `a`. -/
theorem c7_counterexample :
    clean_name (clean_name (String.toList "\"+a\"")) ≠
      clean_name (String.toList "\"+a\"") := by
  decide

/-! ## Claim C2: parent resolution with skipped depths -/

/-- C2 (confirmed): the parent-depth search starts at the candidate depth
and decrements exactly while the depth is absent: the result is at most
the candidate, it is either a present depth or `0`, and every depth
strictly between the result and the candidate is absent.  Moreover the
marker sequence with depths `1, 3` places the depth-3 item directly under
the depth-1 item's path `/r/a` (as `/r/a/b`), with no error. -/
theorem c2_parent_resolution :
    (∀ (m : Nat → Option PyPath) (c : Nat),
      resolveDepth m c ≤ c ∧
      (resolveDepth m c = 0 ∨ (m (resolveDepth m c)).isSome = true) ∧
      (∀ e, resolveDepth m c < e → e ≤ c → m e = none)) ∧
    (parse_salt_tree okAll sampleRoot
        [String.toList "+ a", String.toList "+++ b"]).logs =
      [LogEv.dir pathRA true, LogEv.file pathRAB true] := by
  constructor
  · intro m c
    induction c with
    | zero =>
      exact ⟨Nat.le_refl 0, Or.inl rfl, fun e h1 h2 => by omega⟩
    | succ k ih =>
      by_cases h : (m (k + 1)).isSome = true
      · have hrd : resolveDepth m (k + 1) = k + 1 := by simp [resolveDepth, h]
        rw [hrd]
        exact ⟨Nat.le_refl _, Or.inr h, fun e h1 h2 => by omega⟩
      · have hrd : resolveDepth m (k + 1) = resolveDepth m k := by simp [resolveDepth, h]
        rw [hrd]
        obtain ⟨ih1, ih2, ih3⟩ := ih
        refine ⟨Nat.le_succ_of_le ih1, ih2, fun e h1 h2 => ?_⟩
        by_cases he : e = k + 1
        · subst he
          exact Option.not_isSome_iff_eq_none.mp (by simpa using h)
        · exact ih3 e h1 (by omega)
  · decide

/-- Witness for C2: on the initial map only depth 0 is present, so the
search from candidate depth 2 passes depth 1, which is absent. -/
theorem c2_witness : initMap sampleRoot 1 = none :=
  (c2_parent_resolution.1 (initMap sampleRoot) 2).2.2 1 (by decide) (by decide)

/-! ## Claims C1, C3, C4, C9, C10: the marker-dialect parser -/

/-- Everything `parseSaltLine` guarantees about a produced item: the depth
is the length of the leading `+`-run of the stripped line, it is at least
one, and the cleaned name is non-empty. -/
theorem parseSaltLine_elim {l : List Char} {it : Item}
    (h : parseSaltLine l = some it) :
    it.depth = ((pyStrip isSpace l).takeWhile (fun c => c = '+')).length ∧
    1 ≤ it.depth ∧ it.name ≠ [] := by
  simp only [parseSaltLine] at h
  split at h
  · exact absurd h (by simp)
  · split at h
    · exact absurd h (by simp)
    · split at h
      · exact absurd h (by simp)
      · rename_i hps hnm
        injection h with h
        rw [← h]
        refine ⟨rfl, ?_, hnm⟩
        exact List.length_pos.mpr hps

/-- C1 (confirmed): in the marker-dialect loop, the log event emitted for
item `i` is a directory event iff item `i + 1` exists and is strictly
deeper; nothing beyond item `i + 1` enters the classification. -/
theorem c1_classification_is_one_item_lookahead :
    ∀ (fsOk : FsOp → Bool) (root : PyPath) (m : Nat → Option PyPath)
      (items : List Item) (i : Nat) (it : Item) (e : LogEv),
      items.get? i = some it →
      ((saltGo fsOk root m items).2.2).get? i = some e →
      (e.isDirEv = true ↔ ∃ nx, items.get? (i + 1) = some nx ∧ it.depth < nx.depth) := by
  intro fsOk root m items
  induction items generalizing m with
  | nil => intro i it e hit _; simp at hit
  | cons a rest ih =>
    intro i it e hit hev
    cases i with
    | zero =>
      rw [List.get?_cons_zero] at hit
      injection hit with hit
      subst hit
      rw [saltGo_cons, List.get?_cons_zero] at hev
      injection hev with hev
      subst hev
      rw [saltStep_isDirEv]
      rw [show (a :: rest).get? (0 + 1) = rest.head? from by
        rw [List.get?_cons_succ, List.get?_zero]]
      unfold lookDir
      cases hh : rest.head? with
      | none => simp
      | some nx => simp
    | succ j =>
      rw [List.get?_cons_succ] at hit
      rw [saltGo_cons, List.get?_cons_succ] at hev
      have hres := ih (saltStep fsOk root m a (lookDir a rest)).1 j it e hit hev
      rw [show (a :: rest).get? (j + 1 + 1) = rest.get? (j + 1) from List.get?_cons_succ]
      exact hres

/-- Witness for C1 on the item list with depths `1, 2`: item 0's event is
a directory event because item 1 is strictly deeper. -/
theorem c1_witness :
    (LogEv.dir pathRA true).isDirEv = true ↔
      ∃ nx, ([⟨1, ['a']⟩, ⟨2, ['b']⟩] : List Item).get? (0 + 1) = some nx ∧
        (⟨1, ['a']⟩ : Item).depth < nx.depth :=
  c1_classification_is_one_item_lookahead okAll sampleRoot (initMap sampleRoot)
    [⟨1, ['a']⟩, ⟨2, ['b']⟩] 0 ⟨1, ['a']⟩ (LogEv.dir pathRA true) (by decide) (by decide)

/-- C3 (amended): the marker-dialect parser is per-item non-fatal for
every oracle: it emits exactly one log line (success or error message)
per parsed item, so a failed creation never drops the remaining items. -/
theorem c3_salt_continues_after_failures :
    ∀ (fsOk : FsOp → Bool) (root : PyPath) (lines : List (List Char)),
      ((parse_salt_tree fsOk root lines).logs).length = (saltItems lines).length := by
  intro fsOk root lines
  by_cases h : saltItems lines = []
  · simp only [parse_salt_tree]
    rw [if_pos h, h]
    rfl
  · simp only [parse_salt_tree]
    rw [if_neg h]
    exact saltGo_logs_length fsOk root (saltItems lines) (initMap root)

/-- C3 counterexample: in the brace dialect a failed file creation aborts
the run — the second `class` line is never processed. -/
theorem c3_counterexample :
    (parse_classic_uml failTouchA sampleRoot
        [String.toList "class a", String.toList "class b"]).aborted = true ∧
    (parse_classic_uml failTouchA sampleRoot
        [String.toList "class a", String.toList "class b"]).calls =
      [(FsOp.touchOp pathRA, false)] := by
  decide

/-- C4 (amended): the marker-dialect parser drops every token whose
normalized name is empty — no item with an empty name ever enters the
item sequence. -/
theorem c4_salt_skips_empty_names :
    ∀ (lines : List (List Char)) (it : Item), it ∈ saltItems lines → it.name ≠ [] := by
  intro lines it h
  rw [saltItems, List.mem_filterMap] at h
  obtain ⟨l, _, hl⟩ := h
  exact (parseSaltLine_elim hl).2.2

/-- Witness for C4 on the single line `+ a`. -/
theorem c4_witness : (⟨1, ['a']⟩ : Item).name ≠ [] :=
  c4_salt_skips_empty_names [String.toList "+ a"] ⟨1, ['a']⟩ (by decide)

/-- C4 counterexample: in the brace dialect the token `"'"` normalizes to
the empty name, yet the line is still processed and emits a creation call
(joining the empty name yields the stack top itself, here the root). -/
theorem c4_counterexample :
    clean_name [sq] = [] ∧
    (parse_classic_uml okAll sampleRoot [String.toList "package \"'\""]).calls =
      [(FsOp.mkdirOp sampleRoot, true)] := by
  decide

/-- C9 (confirmed): depth 0 of the mapping always holds the target root;
any deeper entry points at a path whose directory creation succeeded
among the run's calls; file steps and failed directory steps never write
the mapping. -/
theorem c9_dmap_registered_only_on_success :
    ∀ (fsOk : FsOp → Bool) (root : PyPath) (lines : List (List Char)),
      ((parse_salt_tree fsOk root lines).dmap 0 = some root) ∧
      (∀ d p, 0 < d → (parse_salt_tree fsOk root lines).dmap d = some p →
        (FsOp.mkdirOp p, true) ∈ (parse_salt_tree fsOk root lines).calls) ∧
      (∀ (m : Nat → Option PyPath) (it : Item), (saltStep fsOk root m it false).1 = m) ∧
      (∀ (m : Nat → Option PyPath) (it : Item),
        fsOk (FsOp.mkdirOp (joinPath (parentDirOf m root it.depth) it.name)) = false →
        (saltStep fsOk root m it true).1 = m) := by
  intro fsOk root lines
  have hinit : ∀ d : Nat, 0 < d → initMap root d = none := by
    intro d hd
    unfold initMap
    rw [if_neg (by omega)]
  have hdepths : ∀ it ∈ saltItems lines, ¬(0 : Nat) = it.depth := by
    intro it hmem
    rw [saltItems, List.mem_filterMap] at hmem
    obtain ⟨l, _, hl⟩ := hmem
    have := (parseSaltLine_elim hl).2.1
    omega
  refine ⟨?_, ?_, fun m it => saltStep_dmap_file fsOk root m it,
    fun m it h => saltStep_dmap_dir_fail fsOk root m it h⟩
  · by_cases h : saltItems lines = []
    · simp only [parse_salt_tree]
      rw [if_pos h]
      rfl
    · simp only [parse_salt_tree]
      rw [if_neg h]
      show (saltGo fsOk root (initMap root) (saltItems lines)).1 0 = some root
      rw [saltGo_dmap_other fsOk root (saltItems lines) (initMap root) 0 hdepths]
      rfl
  · intro d p hd hp
    by_cases h : saltItems lines = []
    · simp only [parse_salt_tree] at hp
      rw [if_pos h] at hp
      have hp' : initMap root d = some p := hp
      rw [hinit d hd] at hp'
      exact absurd hp' (by simp)
    · simp only [parse_salt_tree] at hp ⊢
      rw [if_neg h] at hp ⊢
      rcases saltGo_dmap_mem fsOk root (saltItems lines) (initMap root) d p hp with hmem | hini
      · exact hmem
      · rw [hinit d hd] at hini
        exact absurd hini (by simp)

/-- Witness for C9: after `+ a`, `++ b` the mapping holds `/r/a` at depth
1, and indeed its successful creation is among the calls. -/
theorem c9_witness :
    (FsOp.mkdirOp pathRA, true) ∈ (parse_salt_tree okAll sampleRoot
        [String.toList "+ a", String.toList "++ b"]).calls :=
  (c9_dmap_registered_only_on_success okAll sampleRoot
      [String.toList "+ a", String.toList "++ b"]).2.1 1 pathRA (by decide) (by decide)

/-- C10 (confirmed): an item's depth is the length of the leading
contiguous `+`-run of the stripped line, and `+ ++ name` parses as one
item of depth 1 named `name` (the later marker run is eaten by the name
normalizer, not counted as depth). -/
theorem c10_depth_is_leading_marker_run :
    (∀ (l : List Char) (it : Item), parseSaltLine l = some it →
      it.depth = ((pyStrip isSpace l).takeWhile (fun c => c = '+')).length) ∧
    parseSaltLine (String.toList "+ ++ name") = some ⟨1, String.toList "name"⟩ :=
  ⟨fun _ _ h => (parseSaltLine_elim h).1, by decide⟩

/-- Witness for C10 on the line `+ a`. -/
theorem c10_witness :
    (⟨1, ['a']⟩ : Item).depth =
      ((pyStrip isSpace (String.toList "+ a")).takeWhile (fun c => c = '+')).length :=
  c10_depth_is_leading_marker_run.1 (String.toList "+ a") ⟨1, ['a']⟩ (by decide)

/-! ## Helper lemmas for path containment and the brace-dialect stack -/

theorem segsInit_refl (a : List (List Char)) : segsInit a a = true := by
  induction a with
  | nil => rfl
  | cons x xs ih => simp [segsInit, ih]

theorem segsInit_append {a b : List (List Char)} (h : segsInit a b = true)
    (c : List (List Char)) : segsInit a (b ++ c) = true := by
  induction a generalizing b with
  | nil => rfl
  | cons x xs ih =>
    cases b with
    | nil => simp [segsInit] at h
    | cons y ys =>
      simp only [segsInit, Bool.and_eq_true, decide_eq_true_eq] at h
      simp only [List.cons_append, segsInit, Bool.and_eq_true, decide_eq_true_eq]
      exact ⟨h.1, ih h.2⟩

theorem underRoot_refl (p : PyPath) : underRoot p p = true := by
  simp [underRoot, segsInit_refl]

theorem underRoot_join {root p : PyPath} (h : underRoot root p = true)
    {name : List Char} (hn : name.head? ≠ some '/') :
    underRoot root (joinPath p name) = true := by
  unfold joinPath
  rw [if_neg hn]
  unfold underRoot at h ⊢
  simp only [Bool.and_eq_true] at h ⊢
  exact ⟨h.1, segsInit_append h.2 _⟩

theorem initMap_under (root : PyPath) : dmapUnder root (initMap root) := by
  intro d p hp
  unfold initMap at hp
  split at hp
  · injection hp with hp
    rw [← hp]
    exact underRoot_refl root
  · exact absurd hp (by simp)

/-- A step of the marker loop keeps all its calls and all map entries
under the root, provided the item's name is not absolute. -/
theorem saltStep_under {fsOk : FsOp → Bool} {root : PyPath} {m : Nat → Option PyPath}
    {it : Item} {b : Bool} (hm : dmapUnder root m) (hn : it.name.head? ≠ some '/') :
    (∀ c ok, (c, ok) ∈ (saltStep fsOk root m it b).2.1 → underRoot root c.path = true) ∧
    dmapUnder root (saltStep fsOk root m it b).1 := by
  have hparent : underRoot root (parentDirOf m root it.depth) = true := by
    unfold parentDirOf
    cases hp : m (resolveDepth m (it.depth - 1)) with
    | none => exact underRoot_refl root
    | some q => exact hm _ q hp
  have hcur : underRoot root (joinPath (parentDirOf m root it.depth) it.name) = true :=
    underRoot_join hparent hn
  unfold saltStep
  cases b with
  | true =>
    rw [if_pos rfl]
    split
    · constructor
      · intro c ok hc
        rw [List.mem_singleton] at hc
        have : c = FsOp.mkdirOp (joinPath (parentDirOf m root it.depth) it.name) :=
          congrArg Prod.fst hc
        rw [this]
        exact hcur
      · intro d p hp
        have hp' : (if d = it.depth then
            some (joinPath (parentDirOf m root it.depth) it.name) else m d) = some p := hp
        by_cases hd : d = it.depth
        · rw [if_pos hd] at hp'
          injection hp' with hp'
          rw [← hp']
          exact hcur
        · rw [if_neg hd] at hp'
          exact hm d p hp'
    · refine ⟨?_, hm⟩
      intro c ok hc
      rw [List.mem_singleton] at hc
      have : c = FsOp.mkdirOp (joinPath (parentDirOf m root it.depth) it.name) :=
        congrArg Prod.fst hc
      rw [this]
      exact hcur
  | false =>
    rw [if_neg (by simp)]
    split
    · split
      · refine ⟨?_, hm⟩
        intro c ok hc
        simp only [List.mem_cons, List.mem_singleton, List.not_mem_nil, or_false,
          Prod.mk.injEq] at hc
        rcases hc with ⟨rfl, _⟩ | ⟨rfl, _⟩
        · exact hparent
        · exact hcur
      · refine ⟨?_, hm⟩
        intro c ok hc
        simp only [List.mem_cons, List.mem_singleton, List.not_mem_nil, or_false,
          Prod.mk.injEq] at hc
        rcases hc with ⟨rfl, _⟩ | ⟨rfl, _⟩
        · exact hparent
        · exact hcur
    · refine ⟨?_, hm⟩
      intro c ok hc
      rw [List.mem_singleton] at hc
      have : c = FsOp.mkdirOp (parentDirOf m root it.depth) := congrArg Prod.fst hc
      rw [this]
      exact hparent

/-- The marker loop keeps every call under the root. -/
theorem saltGo_under (fsOk : FsOp → Bool) (root : PyPath) :
    ∀ (items : List Item) (m : Nat → Option PyPath),
      (∀ it ∈ items, it.name.head? ≠ some '/') → dmapUnder root m →
      ∀ c ok, (c, ok) ∈ (saltGo fsOk root m items).2.1 → underRoot root c.path = true := by
  intro items
  induction items with
  | nil => intro m _ _ c ok hc; exact absurd hc (by simp [saltGo])
  | cons a rest ih =>
    intro m hn hm c ok hc
    rw [saltGo_cons, List.mem_append] at hc
    obtain ⟨hstep, hmap⟩ :=
      @saltStep_under fsOk root m a (lookDir a rest) hm (hn a (List.mem_cons_self a rest))
    rcases hc with hc | hc
    · exact hstep c ok hc
    · exact ih _ (fun it h => hn it (List.mem_cons_of_mem a h)) hmap c ok hc

theorem getLast?_cons_of_ne_nil (p : PyPath) {s : List PyPath} (h : s ≠ []) :
    (p :: s).getLast? = s.getLast? := by
  cases s with
  | nil => exact absurd rfl h
  | cons x xs => exact List.getLast?_cons_cons

/-- One classic step: the stack stays non-empty and keeps the root at its
bottom. -/
theorem classicStep_stack (fsOk : FsOp → Bool) (root : PyPath) (s : List PyPath)
    (l : List Char) (hne : s ≠ []) (hlast : s.getLast? = some root) :
    (classicStep fsOk s l).1 ≠ [] ∧ (classicStep fsOk s l).1.getLast? = some root := by
  simp only [classicStep]
  split
  · exact ⟨hne, hlast⟩
  · split
    · split
      · rename_i hlen
        obtain ⟨x, y, t, rfl⟩ : ∃ x y t, s = x :: y :: t := by
          cases s with
          | nil => simp at hlen
          | cons x xs =>
            cases xs with
            | nil => simp at hlen
            | cons y t => exact ⟨x, y, t, rfl⟩
        refine ⟨by simp, ?_⟩
        rw [show (x :: y :: t).tail = y :: t from rfl]
        rw [← List.getLast?_cons_cons (a := x)]
        exact hlast
      · exact ⟨hne, hlast⟩
    · split
      · exact ⟨hne, hlast⟩
      · split
        · split
          · exact ⟨by simp, (getLast?_cons_of_ne_nil _ hne).trans hlast⟩
          · exact ⟨hne, hlast⟩
        · split
          · exact ⟨hne, hlast⟩
          · exact ⟨hne, hlast⟩

theorem classicGo_cons (fsOk : FsOp → Bool) (s : List PyPath) (l : List Char)
    (rest : List (List Char)) :
    classicGo fsOk s (l :: rest) =
      if (classicStep fsOk s l).2.2.2 then
        ⟨(classicStep fsOk s l).2.1, (classicStep fsOk s l).2.2.1, (classicStep fsOk s l).1, true⟩
      else
        ⟨(classicStep fsOk s l).2.1 ++ (classicGo fsOk (classicStep fsOk s l).1 rest).calls,
         (classicStep fsOk s l).2.2.1 ++ (classicGo fsOk (classicStep fsOk s l).1 rest).logs,
         (classicGo fsOk (classicStep fsOk s l).1 rest).stack,
         (classicGo fsOk (classicStep fsOk s l).1 rest).aborted⟩ := rfl

/-- The classic loop: the stack stays non-empty with the root at its
bottom. -/
theorem classicGo_stack (fsOk : FsOp → Bool) (root : PyPath) :
    ∀ (lines : List (List Char)) (s : List PyPath),
      s ≠ [] → s.getLast? = some root →
      (classicGo fsOk s lines).stack ≠ [] ∧
      (classicGo fsOk s lines).stack.getLast? = some root := by
  intro lines
  induction lines with
  | nil => intro s hne hlast; exact ⟨hne, hlast⟩
  | cons l rest ih =>
    intro s hne hlast
    rw [classicGo_cons]
    obtain ⟨h1, h2⟩ := classicStep_stack fsOk root s l hne hlast
    split
    · exact ⟨h1, h2⟩
    · exact ih _ h1 h2

/-- One classic step: calls stay under the root, the stack stays under
the root and non-empty, provided no matched name is absolute. -/
theorem classicStep_under {fsOk : FsOp → Bool} {root : PyPath} {s : List PyPath}
    {l : List Char} (hs : stackUnder root s) (hne : s ≠ [])
    (hn : ∀ kw nm, matchDef (pyStrip isSpace l) = some (kw, nm) →
      (clean_name nm).head? ≠ some '/') :
    stackUnder root (classicStep fsOk s l).1 ∧
    (∀ c ok, (c, ok) ∈ (classicStep fsOk s l).2.1 → underRoot root c.path = true) := by
  have htop : underRoot root (s.headD ⟨false, []⟩) = true := by
    cases s with
    | nil => exact absurd rfl hne
    | cons x xs => exact hs x (List.mem_cons_self x xs)
  simp only [classicStep]
  split
  · exact ⟨hs, fun c ok hc => absurd hc (by simp)⟩
  · split
    · constructor
      · split
        · intro p hp
          exact hs p (List.mem_of_mem_tail hp)
        · exact hs
      · intro c ok hc
        exact absurd hc (by simp)
    · split
      · exact ⟨hs, fun c ok hc => absurd hc (by simp)⟩
      · rename_i kw nm hmd
        have hp : underRoot root
            (joinPath (s.headD ⟨false, []⟩) (clean_name nm)) = true := by
          refine underRoot_join htop ?_
          exact hn kw nm hmd
        constructor
        · split
          · split
            · intro q hq
              rcases List.mem_cons.mp hq with rfl | hq
              · exact hp
              · exact hs q hq
            · exact hs
          · split
            · exact hs
            · exact hs
        · intro c ok hc
          split at hc
          · split at hc
            · rw [List.mem_singleton] at hc
              have : c = FsOp.mkdirOp (joinPath (s.headD ⟨false, []⟩) (clean_name nm)) :=
                congrArg Prod.fst hc
              rw [this]
              exact hp
            · rw [List.mem_singleton] at hc
              have : c = FsOp.mkdirOp (joinPath (s.headD ⟨false, []⟩) (clean_name nm)) :=
                congrArg Prod.fst hc
              rw [this]
              exact hp
          · split at hc
            · rw [List.mem_singleton] at hc
              have : c = FsOp.touchOp (joinPath (s.headD ⟨false, []⟩) (clean_name nm)) :=
                congrArg Prod.fst hc
              rw [this]
              exact hp
            · rw [List.mem_singleton] at hc
              have : c = FsOp.touchOp (joinPath (s.headD ⟨false, []⟩) (clean_name nm)) :=
                congrArg Prod.fst hc
              rw [this]
              exact hp

/-- The classic loop keeps every call under the root. -/
theorem classicGo_under (fsOk : FsOp → Bool) (root : PyPath) :
    ∀ (lines : List (List Char)) (s : List PyPath),
      (∀ l ∈ lines, ∀ kw nm, matchDef (pyStrip isSpace l) = some (kw, nm) →
        (clean_name nm).head? ≠ some '/') →
      stackUnder root s → s ≠ [] →
      ∀ c ok, (c, ok) ∈ (classicGo fsOk s lines).calls → underRoot root c.path = true := by
  intro lines
  induction lines with
  | nil => intro s _ _ _ c ok hc; exact absurd hc (by simp [classicGo])
  | cons l rest ih =>
    intro s hn hs hne c ok hc
    rw [classicGo_cons] at hc
    obtain ⟨hs', hcall⟩ :=
      @classicStep_under fsOk root s l hs hne (hn l (List.mem_cons_self l rest))
    have hne' : (classicStep fsOk s l).1 ≠ [] ∧
        (classicStep fsOk s l).1.getLast? = some (s.getLast hne) :=
      classicStep_stack fsOk (s.getLast hne) s l hne (List.getLast?_eq_getLast s hne)
    split at hc
    · exact hcall c ok hc
    · rcases List.mem_append.mp hc with hc | hc
      · exact hcall c ok hc
      · exact ih _ (fun l' h => hn l' (List.mem_cons_of_mem l h)) hs' hne'.1 c ok hc

/-! ## Claims C5 and C8 -/

/-- C5 (amended): in both dialects every path passed to a creation call is
a descendant-or-self of the target root, provided no normalized name
begins with the path separator (an absolute name replaces the root on
joining and escapes it). -/
theorem c5_calls_under_root :
    (∀ (fsOk : FsOp → Bool) (root : PyPath) (lines : List (List Char)),
      (∀ it ∈ saltItems lines, it.name.head? ≠ some '/') →
      ∀ c ok, (c, ok) ∈ (parse_salt_tree fsOk root lines).calls →
        underRoot root c.path = true) ∧
    (∀ (fsOk : FsOp → Bool) (root : PyPath) (lines : List (List Char)),
      (∀ l ∈ lines, ∀ kw nm, matchDef (pyStrip isSpace l) = some (kw, nm) →
        (clean_name nm).head? ≠ some '/') →
      ∀ c ok, (c, ok) ∈ (parse_classic_uml fsOk root lines).calls →
        underRoot root c.path = true) := by
  constructor
  · intro fsOk root lines hn c ok hc
    by_cases h : saltItems lines = []
    · simp only [parse_salt_tree] at hc
      rw [if_pos h] at hc
      exact absurd hc (by simp)
    · simp only [parse_salt_tree] at hc
      rw [if_neg h] at hc
      exact saltGo_under fsOk root (saltItems lines) (initMap root) hn
        (initMap_under root) c ok hc
  · intro fsOk root lines hn c ok hc
    refine classicGo_under fsOk root lines [root] hn ?_ (by simp) c ok hc
    intro p hp
    rw [List.mem_singleton] at hp
    rw [hp]
    exact underRoot_refl root

/-- Witness for C5: the file created for `+ a` lies under the root. -/
theorem c5_witness :
    underRoot sampleRoot (FsOp.touchOp pathRA).path = true :=
  c5_calls_under_root.1 okAll sampleRoot [String.toList "+ a"] (by decide)
    (FsOp.touchOp pathRA) true (by decide)

/-- C5 counterexample: the marker line `+ /e` normalizes to the absolute
name `/e`; the parser passes the path `/e` to a creation call, and `/e`
is not under the root `/r`. -/
theorem c5_counterexample :
    (FsOp.touchOp (⟨true, [['e']]⟩ : PyPath), true) ∈
      (parse_salt_tree okAll sampleRoot [String.toList "+ /e"]).calls ∧
    underRoot sampleRoot (⟨true, [['e']]⟩ : PyPath) = false := by
  decide

/-- C8 (confirmed): a line whose stripped form starts with `}` pops
exactly one stack entry when more than the root is on the stack, is a
no-op when only the root remains, and performs no other processing (no
calls, no logs, no abort); consequently, for every input the stack stays
non-empty with the root at its bottom. -/
theorem c8_brace_pop_discipline :
    (∀ (fsOk : FsOp → Bool) (stack : List PyPath) (l : List Char),
      (pyStrip isSpace l).head? = some rbrace →
      classicStep fsOk stack l =
        (if 1 < stack.length then stack.tail else stack, [], [], false)) ∧
    (∀ (fsOk : FsOp → Bool) (root : PyPath) (lines : List (List Char)),
      (parse_classic_uml fsOk root lines).stack ≠ [] ∧
      (parse_classic_uml fsOk root lines).stack.getLast? = some root) := by
  constructor
  · intro fsOk stack l h
    have hnil : pyStrip isSpace l ≠ [] := by
      intro he
      rw [he] at h
      exact absurd h (by simp)
    simp only [classicStep]
    rw [h]
    rw [(by decide : decide ((some rbrace : Option Char) = some sq) = false),
      (by decide : decide ((some rbrace : Option Char) = some '@') = false),
      Bool.or_false, Bool.or_false]
    rw [if_neg (by simpa using hnil)]
    rw [if_pos rfl]
  · intro fsOk root lines
    exact classicGo_stack fsOk root lines [root] (by simp) rfl

/-- Witness for C8: on a stack of two entries a `}` line pops one. -/
theorem c8_witness :
    classicStep okAll [pathRA, sampleRoot] [rbrace] =
      (if 1 < ([pathRA, sampleRoot] : List PyPath).length
        then ([pathRA, sampleRoot] : List PyPath).tail
        else [pathRA, sampleRoot], [], [], false) :=
  c8_brace_pop_discipline.1 okAll [pathRA, sampleRoot] [rbrace] (by decide)

end EtxDir
